import Mathlib

/-!
Verification of the debgpt repository against its natural-language
specification.  Each Python function relevant to the frozen claims is
shallowly embedded as a Lean definition, translated from the source in
src/debgpt, and the claims are settled as theorems about those definitions.
-/

namespace DebGPT

/-! ## reader.py : map-reduce chunk splitter

Embedding of src/debgpt/reader.py, functions _mapreduce_chunk_lines
(recursive) and _mapreduce_chunk_lines_norecussion (explicit stack).
Python lists of lines become Lean lists of strings; the Python dict result
(insertion ordered, keys pairwise distinct) becomes an association list in
insertion order.  len(x.encode('utf8')) is String.utf8ByteSize.
-/

/-- Python slice lines[s:e] for natural indices. -/
def pySlice (lines : List String) (s e : Nat) : List String :=
  (lines.drop s).take (e - s)

/-- sum(len(x.encode('utf8')) for x in lines[start:end]) -/
def sliceBytes (lines : List String) (s e : Nat) : Nat :=
  ((pySlice lines s e).map String.utf8ByteSize).sum

/-- If the slice has at least one byte, the range is nonempty. -/
lemma sliceBytes_pos_range (lines : List String) (s e : Nat)
    (h : 0 < sliceBytes lines s e) : 1 ≤ e - s := by
  by_contra hns
  have h0 : e - s = 0 := by omega
  simp [sliceBytes, pySlice, h0] at h

/-- Embedding of _mapreduce_chunk_lines (reader.py lines 499-519).
The positivity hypothesis on chunk_size is required for termination: the
Python function diverges when chunk_size is not positive, and every claim
about it assumes a positive byte ceiling. -/
def mapreduce_chunk_lines (path : String) (start e : Nat) (lines : List String)
    (chunk_size : Nat) (hc : 0 < chunk_size) :
    List ((String × Nat × Nat) × List String) :=
  if hlt : sliceBytes lines start e < chunk_size then
    [((path, start, e), pySlice lines start e)]
  else if hone : e - start = 1 then
    [((path, start, e), pySlice lines start e)]
  else
    mapreduce_chunk_lines path start ((start + e) / 2) lines chunk_size hc ++
    mapreduce_chunk_lines path ((start + e) / 2) e lines chunk_size hc
termination_by e - start
decreasing_by
  · have h1 : 1 ≤ e - start := sliceBytes_pos_range lines start e (by omega)
    omega
  · have h1 : 1 ≤ e - start := sliceBytes_pos_range lines start e (by omega)
    omega

/-- Stack measure used to show the explicit-stack variant terminates. -/
def stackMeasure (st : List (Nat × Nat)) : Nat :=
  (st.map (fun p => 3 ^ (p.2 - p.1))).sum

lemma pow3_split (a b : Nat) (ha : 1 ≤ a) (hb : 1 ≤ b) :
    3 ^ a + 3 ^ b < 3 ^ (a + b) := by
  obtain ⟨c, hcdef⟩ : ∃ c, a + b = c + 1 := ⟨a + b - 1, by omega⟩
  have h1 : 3 ^ a ≤ 3 ^ c := Nat.pow_le_pow_right (by omega) (by omega)
  have h2 : 3 ^ b ≤ 3 ^ c := Nat.pow_le_pow_right (by omega) (by omega)
  have h3 : 3 ^ (a + b) = 3 ^ c * 3 := by rw [hcdef, Nat.pow_succ]
  have h4 : 0 < 3 ^ c := Nat.pos_pow_of_pos _ (by omega)
  omega

/-- Loop body of _mapreduce_chunk_lines_norecussion (reader.py lines
522-553): while the stack is nonempty, pop a range; emit it if it fits or
is a single line, otherwise push its two halves (left first, so the right
half is popped first).  Results are accumulated in emission order, as the
Python dict records them in insertion order. -/
def mapreduce_chunk_lines_norec_go (path : String) (lines : List String)
    (chunk_size : Nat) (hc : 0 < chunk_size) :
    List (Nat × Nat) → List ((String × Nat × Nat) × List String)
  | [] => []
  | (cs, ce) :: stack =>
    if hlt : sliceBytes lines cs ce < chunk_size then
      ((path, cs, ce), pySlice lines cs ce) ::
        mapreduce_chunk_lines_norec_go path lines chunk_size hc stack
    else if hone : ce - cs = 1 then
      ((path, cs, ce), pySlice lines cs ce) ::
        mapreduce_chunk_lines_norec_go path lines chunk_size hc stack
    else
      mapreduce_chunk_lines_norec_go path lines chunk_size hc
        (((cs + ce) / 2, ce) :: (cs, (cs + ce) / 2) :: stack)
termination_by st => stackMeasure st
decreasing_by
  · simp only [stackMeasure, List.map_cons, List.sum_cons]
    have h4 : 0 < 3 ^ (ce - cs) := Nat.pos_pow_of_pos _ (by omega)
    omega
  · simp only [stackMeasure, List.map_cons, List.sum_cons]
    have h4 : 0 < 3 ^ (ce - cs) := Nat.pos_pow_of_pos _ (by omega)
    omega
  · simp only [stackMeasure, List.map_cons, List.sum_cons]
    have h1 : 1 ≤ ce - cs := sliceBytes_pos_range lines cs ce (by omega)
    have h2 : 2 ≤ ce - cs := by omega
    have h3 : 3 ^ (ce - (cs + ce) / 2) + 3 ^ ((cs + ce) / 2 - cs) <
        3 ^ (ce - cs) := by
      have hs := pow3_split (ce - (cs + ce) / 2) ((cs + ce) / 2 - cs)
        (by omega) (by omega)
      have harith : (ce - (cs + ce) / 2) + ((cs + ce) / 2 - cs) = ce - cs := by
        omega
      rwa [harith] at hs
    omega

/-- Embedding of _mapreduce_chunk_lines_norecussion: run the loop on the
initial singleton stack [(start, end)]. -/
def mapreduce_chunk_lines_norecussion (path : String) (start e : Nat)
    (lines : List String) (chunk_size : Nat) (hc : 0 < chunk_size) :
    List ((String × Nat × Nat) × List String) :=
  mapreduce_chunk_lines_norec_go path lines chunk_size hc [(start, e)]

/-- A list of ranges links s to e consecutively: each range starts where
the previous one ended, the first starts at s and the last ends at e. -/
def Chained : Nat → Nat → List (Nat × Nat) → Prop
  | s, e, [] => s = e
  | s, e, r :: rest => r.1 = s ∧ s ≤ r.2 ∧ Chained r.2 e rest

lemma chained_le : ∀ (rs : List (Nat × Nat)) (s e : Nat),
    Chained s e rs → s ≤ e := by
  intro rs
  induction rs with
  | nil => intro s e h; exact Nat.le_of_eq h
  | cons r rest ih =>
    intro s e h
    obtain ⟨h1, h2, h3⟩ := h
    exact le_trans h2 (ih r.2 e h3)

lemma chained_append : ∀ (xs ys : List (Nat × Nat)) (s m e : Nat),
    Chained s m xs → Chained m e ys → Chained s e (xs ++ ys) := by
  intro xs
  induction xs with
  | nil =>
    intro ys s m e hx hy
    cases hx
    simpa using hy
  | cons r rest ih =>
    intro ys s m e hx hy
    obtain ⟨h1, h2, h3⟩ := hx
    exact ⟨h1, h2, ih ys r.2 m e h3 hy⟩

lemma chained_mem_bounds : ∀ (rs : List (Nat × Nat)) (s e : Nat),
    Chained s e rs → ∀ r ∈ rs, s ≤ r.1 ∧ r.2 ≤ e := by
  intro rs
  induction rs with
  | nil => intro s e _ r hr; simp at hr
  | cons q rest ih =>
    intro s e h r hr
    obtain ⟨h1, h2, h3⟩ := h
    rcases List.mem_cons.mp hr with hq | hmem
    · subst hq
      exact ⟨Nat.le_of_eq h1.symm, chained_le rest r.2 e h3⟩
    · have hb := ih q.2 e h3 r hmem
      exact ⟨le_trans h2 hb.1, hb.2⟩

lemma chained_pairwise_le : ∀ (rs : List (Nat × Nat)) (s e : Nat),
    Chained s e rs → rs.Pairwise (fun a b => a.2 ≤ b.1) := by
  intro rs
  induction rs with
  | nil => intro s e _; exact List.Pairwise.nil
  | cons q rest ih =>
    intro s e h
    obtain ⟨h1, h2, h3⟩ := h
    refine List.Pairwise.cons ?_ (ih q.2 e h3)
    intro r hr
    exact (chained_mem_bounds rest q.2 e h3 r hr).1

lemma chained_union : ∀ (rs : List (Nat × Nat)) (s e : Nat),
    Chained s e rs →
      rs.foldr (fun r acc => Finset.Ico r.1 r.2 ∪ acc) ∅ = Finset.Ico s e := by
  intro rs
  induction rs with
  | nil =>
    intro s e h
    cases h
    simp
  | cons q rest ih =>
    intro s e h
    obtain ⟨h1, h2, h3⟩ := h
    have he : q.2 ≤ e := chained_le rest q.2 e h3
    simp only [List.foldr_cons, ih q.2 e h3, h1]
    exact Finset.Ico_union_Ico_eq_Ico h2 he

/-- Python slices over adjacent ranges concatenate. -/
lemma pySlice_append (lines : List String) (s b e : Nat) (hsb : s ≤ b)
    (hbe : b ≤ e) :
    pySlice lines s b ++ pySlice lines b e = pySlice lines s e := by
  unfold pySlice
  have h1 : e - s = (b - s) + (e - b) := by omega
  rw [h1, List.take_add, List.drop_drop]
  have h2 : s + (b - s) = b := by omega
  rw [h2]

lemma chained_join (lines : List String) :
    ∀ (ch : List ((String × Nat × Nat) × List String)) (s e : Nat),
      Chained s e (ch.map (fun p => p.1.2)) →
      (∀ p ∈ ch, p.2 = pySlice lines p.1.2.1 p.1.2.2) →
      (ch.map Prod.snd).flatten = pySlice lines s e := by
  intro ch
  induction ch with
  | nil =>
    intro s e h _
    cases h
    simp [pySlice]
  | cons p rest ih =>
    intro s e h hv
    obtain ⟨h1, h2, h3⟩ := h
    have hp := hv p (List.mem_cons_self p rest)
    have hrest : ∀ q ∈ rest, q.2 = pySlice lines q.1.2.1 q.1.2.2 := by
      intro q hq
      exact hv q (List.mem_cons_of_mem p hq)
    have he : p.1.2.2 ≤ e := chained_le _ _ _ h3
    simp only [List.map_cons, List.flatten_cons, ih p.1.2.2 e h3 hrest, hp, h1]
    exact pySlice_append lines s p.1.2.2 e (h1 ▸ h2) he

/-- The ranges produced by the recursive splitter chain start to end. -/
lemma chunk_ranges_chained (path : String) (lines : List String)
    (chunk_size : Nat) (hc : 0 < chunk_size) :
    ∀ s e : Nat, s ≤ e →
      Chained s e ((mapreduce_chunk_lines path s e lines chunk_size hc).map
        (fun p => p.1.2)) := by
  intro s e
  induction s, e, lines, chunk_size, hc using mapreduce_chunk_lines.induct with
  | path => exact path
  | case1 s e lines chunk_size hc hlt =>
    intro hse
    rw [mapreduce_chunk_lines, dif_pos hlt]
    exact ⟨rfl, hse, rfl⟩
  | case2 s e lines chunk_size hc hlt hone =>
    intro hse
    rw [mapreduce_chunk_lines, dif_neg hlt, dif_pos hone]
    exact ⟨rfl, hse, rfl⟩
  | case3 s e lines chunk_size hc hlt hone ihl ihr =>
    intro hse
    have h1 : 1 ≤ e - s := sliceBytes_pos_range lines s e (by omega)
    have h2 : 2 ≤ e - s := by omega
    rw [mapreduce_chunk_lines, dif_neg hlt, dif_neg hone]
    rw [List.map_append]
    exact chained_append _ _ s ((s + e) / 2) e (ihl (by omega)) (ihr (by omega))

/-- Every entry of the recursive splitter carries the given path and the
slice of its own range. -/
lemma chunk_entries_shape (path : String) (lines : List String)
    (chunk_size : Nat) (hc : 0 < chunk_size) :
    ∀ s e : Nat,
      ∀ p ∈ mapreduce_chunk_lines path s e lines chunk_size hc,
        p.1.1 = path ∧ p.2 = pySlice lines p.1.2.1 p.1.2.2 := by
  intro s e
  induction s, e, lines, chunk_size, hc using mapreduce_chunk_lines.induct with
  | path => exact path
  | case1 s e lines chunk_size hc hlt =>
    intro p hp
    rw [mapreduce_chunk_lines, dif_pos hlt] at hp
    simp at hp
    subst hp
    exact ⟨rfl, rfl⟩
  | case2 s e lines chunk_size hc hlt hone =>
    intro p hp
    rw [mapreduce_chunk_lines, dif_neg hlt, dif_pos hone] at hp
    simp at hp
    subst hp
    exact ⟨rfl, rfl⟩
  | case3 s e lines chunk_size hc hlt hone ihl ihr =>
    intro p hp
    rw [mapreduce_chunk_lines, dif_neg hlt, dif_neg hone] at hp
    rcases List.mem_append.mp hp with h | h
    · exact ihl p h
    · exact ihr p h

/-- On a nonempty range every produced range is nonempty. -/
lemma chunk_ranges_nonempty (path : String) (lines : List String)
    (chunk_size : Nat) (hc : 0 < chunk_size) :
    ∀ s e : Nat, s < e →
      ∀ p ∈ mapreduce_chunk_lines path s e lines chunk_size hc,
        p.1.2.1 < p.1.2.2 := by
  intro s e
  induction s, e, lines, chunk_size, hc using mapreduce_chunk_lines.induct with
  | path => exact path
  | case1 s e lines chunk_size hc hlt =>
    intro hse p hp
    rw [mapreduce_chunk_lines, dif_pos hlt] at hp
    simp at hp
    subst hp
    exact hse
  | case2 s e lines chunk_size hc hlt hone =>
    intro hse p hp
    rw [mapreduce_chunk_lines, dif_neg hlt, dif_pos hone] at hp
    simp at hp
    subst hp
    exact hse
  | case3 s e lines chunk_size hc hlt hone ihl ihr =>
    intro hse p hp
    have h1 : 1 ≤ e - s := sliceBytes_pos_range lines s e (by omega)
    have h2 : 2 ≤ e - s := by omega
    rw [mapreduce_chunk_lines, dif_neg hlt, dif_neg hone] at hp
    rcases List.mem_append.mp hp with h | h
    · exact ihl (by omega) p h
    · exact ihr (by omega) p h

/-- On an empty or inverted range the recursive splitter emits one chunk. -/
lemma chunk_singleton_of_le (path : String) (lines : List String)
    (chunk_size : Nat) (hc : 0 < chunk_size) (s e : Nat) (h : e ≤ s) :
    mapreduce_chunk_lines path s e lines chunk_size hc =
      [((path, s, e), pySlice lines s e)] := by
  have h0 : e - s = 0 := by omega
  have hb : sliceBytes lines s e = 0 := by
    simp [sliceBytes, pySlice, h0]
  rw [mapreduce_chunk_lines, dif_pos (by omega)]

/-- The stack loop emits, for each stacked range in order, exactly the
reversed recursive result of that range. -/
lemma norec_go_join (path : String) (lines : List String) (chunk_size : Nat)
    (hc : 0 < chunk_size) :
    ∀ (n : Nat) (st : List (Nat × Nat)), stackMeasure st < n →
      mapreduce_chunk_lines_norec_go path lines chunk_size hc st =
        (st.map (fun r =>
          (mapreduce_chunk_lines path r.1 r.2 lines chunk_size hc).reverse)).flatten := by
  intro n
  induction n with
  | zero => intro st h; omega
  | succ n ih =>
    intro st hst
    match st with
    | [] =>
      rw [mapreduce_chunk_lines_norec_go]
      simp
    | (cs, ce) :: stack =>
      have hms : stackMeasure ((cs, ce) :: stack) =
          3 ^ (ce - cs) + stackMeasure stack := by
        simp [stackMeasure]
      have h4 : 0 < 3 ^ (ce - cs) := Nat.pos_pow_of_pos _ (by omega)
      by_cases hlt : sliceBytes lines cs ce < chunk_size
      · rw [mapreduce_chunk_lines_norec_go, dif_pos hlt, ih stack (by omega)]
        simp only [List.map_cons, List.flatten_cons]
        rw [mapreduce_chunk_lines, dif_pos hlt]
        simp
      · by_cases hone : ce - cs = 1
        · rw [mapreduce_chunk_lines_norec_go, dif_neg hlt, dif_pos hone,
            ih stack (by omega)]
          simp only [List.map_cons, List.flatten_cons]
          rw [mapreduce_chunk_lines, dif_neg hlt, dif_pos hone]
          simp
        · have h1 : 1 ≤ ce - cs := sliceBytes_pos_range lines cs ce (by omega)
          have hsplit : 3 ^ (ce - (cs + ce) / 2) + 3 ^ ((cs + ce) / 2 - cs) <
              3 ^ (ce - cs) := by
            have hs := pow3_split (ce - (cs + ce) / 2) ((cs + ce) / 2 - cs)
              (by omega) (by omega)
            have harith : (ce - (cs + ce) / 2) + ((cs + ce) / 2 - cs) =
                ce - cs := by omega
            rwa [harith] at hs
          have hdec : stackMeasure (((cs + ce) / 2, ce) ::
              (cs, (cs + ce) / 2) :: stack) < n := by
            simp only [stackMeasure, List.map_cons, List.sum_cons]
            simp only [stackMeasure] at hms hst
            omega
          rw [mapreduce_chunk_lines_norec_go, dif_neg hlt, dif_neg hone,
            ih _ hdec]
          simp only [List.map_cons, List.flatten_cons]
          conv_rhs => rw [mapreduce_chunk_lines, dif_neg hlt, dif_neg hone,
            List.reverse_append, List.append_assoc]

/-- The explicit-stack variant returns exactly the reverse of the
recursive variant. -/
lemma norec_eq_reverse (path : String) (lines : List String) (s e : Nat)
    (chunk_size : Nat) (hc : 0 < chunk_size) :
    mapreduce_chunk_lines_norecussion path s e lines chunk_size hc =
      (mapreduce_chunk_lines path s e lines chunk_size hc).reverse := by
  have h := norec_go_join path lines chunk_size hc
    (stackMeasure [(s, e)] + 1) [(s, e)] (by omega)
  simpa [mapreduce_chunk_lines_norecussion] using h

/-- The key list is the range list paired with the fixed path. -/
lemma chunk_keys_eq (path : String) (lines : List String) (chunk_size : Nat)
    (hc : 0 < chunk_size) (s e : Nat) :
    (mapreduce_chunk_lines path s e lines chunk_size hc).map Prod.fst =
      ((mapreduce_chunk_lines path s e lines chunk_size hc).map
        (fun p => p.1.2)).map (fun r => (path, r)) := by
  rw [List.map_map]
  apply List.map_congr_left
  intro p hp
  have hs := (chunk_entries_shape path lines chunk_size hc s e p hp).1
  show p.1 = (path, p.1.2)
  rw [← hs]

/-- The range list of the recursive splitter has no duplicates. -/
lemma chunk_ranges_nodup (path : String) (lines : List String)
    (chunk_size : Nat) (hc : 0 < chunk_size) (s e : Nat) :
    ((mapreduce_chunk_lines path s e lines chunk_size hc).map
      (fun p => p.1.2)).Nodup := by
  by_cases hse : s < e
  · have hch := chunk_ranges_chained path lines chunk_size hc s e (le_of_lt hse)
    have hpw := chained_pairwise_le _ _ _ hch
    have hne := chunk_ranges_nonempty path lines chunk_size hc s e hse
    refine List.Pairwise.imp_of_mem ?_ hpw
    intro a b ha hb hle
    obtain ⟨pa, hpa, hpa2⟩ := List.mem_map.mp ha
    obtain ⟨pb, hpb, hpb2⟩ := List.mem_map.mp hb
    have h1 : a.1 < a.2 := by rw [← hpa2]; exact hne pa hpa
    have h2 : b.1 < b.2 := by rw [← hpb2]; exact hne pb hpb
    intro heq
    rw [heq] at h1 hle
    omega
  · rw [chunk_singleton_of_le path lines chunk_size hc s e (by omega)]
    simp

/-- The key list of the recursive splitter has no duplicates. -/
lemma chunk_keys_nodup (path : String) (lines : List String)
    (chunk_size : Nat) (hc : 0 < chunk_size) (s e : Nat) :
    ((mapreduce_chunk_lines path s e lines chunk_size hc).map Prod.fst).Nodup := by
  rw [chunk_keys_eq path lines chunk_size hc s e]
  refine List.Nodup.map ?_ (chunk_ranges_nodup path lines chunk_size hc s e)
  intro a b hab
  exact congrArg Prod.snd hab

/-- Every chunk on a subrange of the array fits under the ceiling or is a
single line. -/
lemma chunk_size_bound_aux (path : String) (lines : List String)
    (chunk_size : Nat) (hc : 0 < chunk_size) :
    ∀ s e : Nat, e ≤ lines.length →
      ∀ p ∈ mapreduce_chunk_lines path s e lines chunk_size hc,
        (p.2.map String.utf8ByteSize).sum < chunk_size ∨ p.2.length = 1 := by
  intro s e
  induction s, e, lines, chunk_size, hc using mapreduce_chunk_lines.induct with
  | path => exact path
  | case1 s e lines chunk_size hc hlt =>
    intro _ p hp
    rw [mapreduce_chunk_lines, dif_pos hlt] at hp
    simp at hp
    subst hp
    exact Or.inl hlt
  | case2 s e lines chunk_size hc hlt hone =>
    intro hlen p hp
    rw [mapreduce_chunk_lines, dif_neg hlt, dif_pos hone] at hp
    simp at hp
    subst hp
    refine Or.inr ?_
    simp only [pySlice, List.length_take, List.length_drop, hone]
    omega
  | case3 s e lines chunk_size hc hlt hone ihl ihr =>
    intro hlen p hp
    have h1 : 1 ≤ e - s := sliceBytes_pos_range lines s e (by omega)
    rw [mapreduce_chunk_lines, dif_neg hlt, dif_neg hone] at hp
    rcases List.mem_append.mp hp with h | h
    · exact ihl (by omega) p h
    · exact ihr hlen p h

/-- C1: for every line array and every positive byte ceiling, the ranges
produced by the recursive chunk splitter applied to the full range
partition the interval of line indices: they are pairwise disjoint, their
union is exactly the index range (no gap), they appear in ascending range
order, and concatenating the chunks in that order reproduces the original
line array exactly. -/
theorem chunk_splitter_partitions_range (path : String) (lines : List String)
    (chunk_size : Nat) (hc : 0 < chunk_size) :
    (((mapreduce_chunk_lines path 0 lines.length lines chunk_size hc).map
        (fun p => p.1.2)).Pairwise
        (fun a b => Disjoint (Finset.Ico a.1 a.2) (Finset.Ico b.1 b.2)))
    ∧ (((mapreduce_chunk_lines path 0 lines.length lines chunk_size hc).map
        (fun p => p.1.2)).foldr (fun r acc => Finset.Ico r.1 r.2 ∪ acc) ∅ =
        Finset.range lines.length)
    ∧ (((mapreduce_chunk_lines path 0 lines.length lines chunk_size hc).map
        (fun p => p.1.2)).Pairwise (fun a b => a.2 ≤ b.1))
    ∧ ((mapreduce_chunk_lines path 0 lines.length lines chunk_size hc).map
        Prod.snd).flatten = lines := by
  have hch := chunk_ranges_chained path lines chunk_size hc 0 lines.length
    (Nat.zero_le _)
  have hpw := chained_pairwise_le _ _ _ hch
  refine ⟨?_, ?_, hpw, ?_⟩
  · refine hpw.imp ?_
    intro a b hab
    rw [Finset.disjoint_left]
    intro x hx hx2
    rw [Finset.mem_Ico] at hx hx2
    omega
  · rw [chained_union _ _ _ hch, Finset.range_eq_Ico]
  · have hj := chained_join lines
      (mapreduce_chunk_lines path 0 lines.length lines chunk_size hc)
      0 lines.length hch (fun p hp =>
        (chunk_entries_shape path lines chunk_size hc 0 lines.length p hp).2)
    rw [hj]
    simp [pySlice]

/-- Witness for C1 at a concrete input. -/
theorem chunk_splitter_partitions_range_witness :
    (0 : Nat) < 2 ∧
    ((((mapreduce_chunk_lines "f" 0 (["ab", "cd", "ef"] : List String).length
        ["ab", "cd", "ef"] 2 (by decide)).map (fun p => p.1.2)).Pairwise
        (fun a b => Disjoint (Finset.Ico a.1 a.2) (Finset.Ico b.1 b.2)))
    ∧ (((mapreduce_chunk_lines "f" 0 (["ab", "cd", "ef"] : List String).length
        ["ab", "cd", "ef"] 2 (by decide)).map
        (fun p => p.1.2)).foldr (fun r acc => Finset.Ico r.1 r.2 ∪ acc) ∅ =
        Finset.range (["ab", "cd", "ef"] : List String).length)
    ∧ (((mapreduce_chunk_lines "f" 0 (["ab", "cd", "ef"] : List String).length
        ["ab", "cd", "ef"] 2 (by decide)).map
        (fun p => p.1.2)).Pairwise (fun a b => a.2 ≤ b.1))
    ∧ ((mapreduce_chunk_lines "f" 0 (["ab", "cd", "ef"] : List String).length
        ["ab", "cd", "ef"] 2 (by decide)).map
        Prod.snd).flatten = ["ab", "cd", "ef"]) :=
  ⟨by decide, chunk_splitter_partitions_range "f" ["ab", "cd", "ef"] 2 (by decide)⟩

/-- C2 as stated is false: the code bounds the sum of the per-line UTF-8
byte lengths, not the byte length of the newline-joined text.  With
ceiling 4 and lines a, b, c the splitter returns one three-line chunk
whose newline-joined UTF-8 text is 5 bytes long. -/
theorem chunk_newline_bound_counterexample :
    mapreduce_chunk_lines "f" 0 (["a", "b", "c"] : List String).length
      ["a", "b", "c"] 4 (by decide) = [(("f", 0, 3), ["a", "b", "c"])]
    ∧ ¬((String.intercalate "\n" ["a", "b", "c"]).utf8ByteSize ≤ 4
        ∨ (["a", "b", "c"] : List String).length = 1) := by
  constructor
  · simp only [List.length_cons, List.length_nil]
    rw [mapreduce_chunk_lines, dif_pos (by decide)]
    decide
  · decide

/-- C2 (amended): every chunk returned by the splitter applied to the full
range either has per-line UTF-8 byte total (the separator-free count the
code uses) at or under the ceiling, or consists of exactly one line. -/
theorem chunk_size_bound_amended (path : String) (lines : List String)
    (chunk_size : Nat) (hc : 0 < chunk_size) :
    ∀ p ∈ mapreduce_chunk_lines path 0 lines.length lines chunk_size hc,
      (p.2.map String.utf8ByteSize).sum ≤ chunk_size ∨ p.2.length = 1 := by
  intro p hp
  rcases chunk_size_bound_aux path lines chunk_size hc 0 lines.length
    (le_refl _) p hp with h | h
  · exact Or.inl (le_of_lt h)
  · exact Or.inr h

/-- Witness for the amended C2 at a concrete input. -/
theorem chunk_size_bound_amended_witness :
    (0 : Nat) < 3 ∧
    ((("w", 0, 1), ["ab"]) ∈
        mapreduce_chunk_lines "w" 0 (["ab", "xyz"] : List String).length
          ["ab", "xyz"] 3 (by decide) →
      (((["ab"] : List String).map String.utf8ByteSize).sum ≤ 3
        ∨ (["ab"] : List String).length = 1)) :=
  ⟨by decide, fun hmem =>
    chunk_size_bound_amended "w" ["ab", "xyz"] 3 (by decide)
      (("w", 0, 1), ["ab"]) hmem⟩

/-- C3: for every path label, line array, range and positive byte ceiling,
the recursive splitter and the explicit-stack iterative fallback return
equal mappings: membership of key-value pairs coincides, the key sets
coincide, and both key lists are duplicate-free.  (The iterative result is
the reverse of the recursive list, so as association maps they agree.) -/
theorem norecussion_equals_recursive_mapping (path : String)
    (lines : List String) (s e chunk_size : Nat) (hc : 0 < chunk_size) :
    (∀ k v, (k, v) ∈
        mapreduce_chunk_lines_norecussion path s e lines chunk_size hc ↔
      (k, v) ∈ mapreduce_chunk_lines path s e lines chunk_size hc)
    ∧ (∀ k, k ∈
        (mapreduce_chunk_lines_norecussion path s e lines chunk_size hc).map
          Prod.fst ↔
      k ∈ (mapreduce_chunk_lines path s e lines chunk_size hc).map Prod.fst)
    ∧ ((mapreduce_chunk_lines_norecussion path s e lines chunk_size hc).map
        Prod.fst).Nodup
    ∧ ((mapreduce_chunk_lines path s e lines chunk_size hc).map
        Prod.fst).Nodup := by
  have hrev := norec_eq_reverse path lines s e chunk_size hc
  have hnd := chunk_keys_nodup path lines chunk_size hc s e
  refine ⟨?_, ?_, ?_, hnd⟩
  · intro k v
    rw [hrev, List.mem_reverse]
  · intro k
    rw [hrev, List.map_reverse, List.mem_reverse]
  · rw [hrev, List.map_reverse, List.nodup_reverse]
    exact hnd

/-- Witness for C3 at a concrete input. -/
theorem norecussion_equals_recursive_mapping_witness :
    (0 : Nat) < 2 ∧
    ((∀ k v, (k, v) ∈
        mapreduce_chunk_lines_norecussion "g" 0 3 ["a", "b", "c"] 2 (by decide) ↔
      (k, v) ∈ mapreduce_chunk_lines "g" 0 3 ["a", "b", "c"] 2 (by decide))
    ∧ (∀ k, k ∈
        (mapreduce_chunk_lines_norecussion "g" 0 3 ["a", "b", "c"] 2
          (by decide)).map Prod.fst ↔
      k ∈ (mapreduce_chunk_lines "g" 0 3 ["a", "b", "c"] 2 (by decide)).map
        Prod.fst)
    ∧ ((mapreduce_chunk_lines_norecussion "g" 0 3 ["a", "b", "c"] 2
        (by decide)).map Prod.fst).Nodup
    ∧ ((mapreduce_chunk_lines "g" 0 3 ["a", "b", "c"] 2 (by decide)).map
        Prod.fst).Nodup) :=
  ⟨by decide, norecussion_equals_recursive_mapping "g" ["a", "b", "c"] 0 3 2
    (by decide)⟩

/-! ## cache.py : SQLite-backed string cache

The backing table is modelled as an association list in row order with
unique keys (the key column is the primary key).  The lz4 compression
round-trip on values is the identity at this level of abstraction and is
not modelled.  A raised KeyError is an Except.error result. -/

/-- Embedding of Cache.__getitem__ (cache.py 64-71): SELECT the row with
the given key; raise KeyError when no row matches. -/
def cacheGetitem (store : List (String × String)) (key : String) :
    Except Unit String :=
  match store.find? (fun p => p.1 == key) with
  | some p => Except.ok p.2
  | none => Except.error ()

/-- Embedding of Cache.__delitem__ (cache.py 73-77): DELETE the rows with
the given key; raise KeyError when the rowcount is zero. -/
def cacheDelitem (store : List (String × String)) (key : String) :
    Except Unit (List (String × String)) :=
  let store2 := store.filter (fun p => !(p.1 == key))
  if store.length - store2.length = 0 then Except.error ()
  else Except.ok store2

/-- Embedding of Cache.pop (cache.py 120-126): try self[key] then
del self[key] and return the value; on KeyError return the default, which
itself defaults to None.  The try/except makes pop total: it never
propagates the KeyError. -/
def cachePop (store : List (String × String)) (key : String)
    (default : Option String) : Option String × List (String × String) :=
  match cacheGetitem store key with
  | Except.ok v =>
    match cacheDelitem store key with
    | Except.ok store2 => (some v, store2)
    | Except.error _ => (default, store)
  | Except.error _ => (default, store)

/-- C5 is false as stated for pop: on the empty store, reading and
deleting a missing key do raise, but pop without a supplied default
silently returns None (the default of its default argument) instead of
raising, because Cache.pop catches the KeyError. -/
theorem cache_pop_silent_counterexample :
    cacheGetitem [] "k" = Except.error ()
    ∧ cacheDelitem [] "k" = Except.error ()
    ∧ cachePop [] "k" none = (none, []) :=
  ⟨rfl, rfl, rfl⟩

/-- C5 (amended): for every key absent from the store, reading and
deleting raise a Not-Found condition, while pop never raises: it returns
the supplied default (None when not supplied) and leaves the store
unchanged. -/
theorem cache_missing_key_amended (store : List (String × String))
    (key : String) (h : key ∉ store.map Prod.fst) :
    cacheGetitem store key = Except.error ()
    ∧ cacheDelitem store key = Except.error ()
    ∧ ∀ d, cachePop store key d = (d, store) := by
  have hfind : store.find? (fun p => p.1 == key) = none := by
    rw [List.find?_eq_none]
    intro p hp hbeq
    exact h (List.mem_map.mpr ⟨p, hp, by simpa using hbeq⟩)
  have hget : cacheGetitem store key = Except.error () := by
    rw [cacheGetitem, hfind]
  have hfil : store.filter (fun p => !(p.1 == key)) = store := by
    rw [List.filter_eq_self]
    intro p hp
    simp only [Bool.not_eq_eq_eq_not, Bool.not_true, beq_eq_false_iff_ne]
    intro heq
    exact h (List.mem_map.mpr ⟨p, hp, heq⟩)
  refine ⟨hget, ?_, ?_⟩
  · rw [cacheDelitem]
    simp [hfil]
  · intro d
    rw [cachePop, hget]

/-- Witness for the amended C5 at a concrete input. -/
theorem cache_missing_key_amended_witness :
    ("b" ∉ ([("a", "1")] : List (String × String)).map Prod.fst)
    ∧ (cacheGetitem [("a", "1")] "b" = Except.error ()
      ∧ cacheDelitem [("a", "1")] "b" = Except.error ()
      ∧ ∀ d, cachePop [("a", "1")] "b" d = (d, [("a", "1")])) :=
  ⟨by decide, cache_missing_key_amended [("a", "1")] "b" (by decide)⟩

/-! ## frontend.py : one-shot context injection for the outbound request -/

/-- A chat message: a role and a content string. -/
structure ChatMsg where
  role : String
  content : String
deriving DecidableEq

/-- In a nonempty list, the last element decomposes the list. -/
lemma list_getLast_decomp {α : Type} : ∀ (l : List α) (a : α),
    l.getLast? = some a → l = l.dropLast ++ [a] := by
  intro l
  induction l with
  | nil => intro a h; cases h
  | cons x xs ih =>
    intro a h
    cases xs with
    | nil =>
      simp only [List.getLast?_singleton, Option.some.injEq] at h
      subst h
      rfl
    | cons y ys =>
      rw [List.getLast?_cons_cons] at h
      have h2 := ih a h
      calc x :: y :: ys = x :: ((y :: ys).dropLast ++ [a]) := by rw [← h2]
        _ = (x :: y :: ys).dropLast ++ [a] := by simp

/-- Embedding of AbstractFrontend._messages_for_llm (frontend.py 259-269).
The stored session is only read; the outbound list is built fresh.  Python
truthiness of the stored context prompt (None and the empty string are
both falsy) is modelled by comparing Option.getD with the empty string. -/
def messages_for_llm (session : List ChatMsg) (ctxPrompt : Option String) :
    List ChatMsg :=
  if session.isEmpty || (ctxPrompt.getD "" == "") then session
  else if (session.getLastD ⟨"", ""⟩).role != "user" then session
  else session.dropLast ++
    [⟨"system", ctxPrompt.getD ""⟩, session.getLastD ⟨"", ""⟩]

/-- C9: when a retrieved-context prompt is pending (set and nonempty) and
the newest session message has role user, the outbound list is the stored
session with exactly one synthesized system message inserted immediately
before that newest message; the stored session itself still decomposes as
its first part plus the newest message, unchanged.  When no context is
pending, or the newest message is not from the user, or the session is
empty, the outbound list is exactly the stored session. -/
theorem vector_context_injection (session : List ChatMsg)
    (ctx : Option String) :
    (∀ c last, ctx = some c → c ≠ "" → session.getLast? = some last →
        last.role = "user" →
        messages_for_llm session ctx =
          session.dropLast ++ [⟨"system", c⟩, last]
        ∧ session = session.dropLast ++ [last])
    ∧ (ctx.getD "" = "" → messages_for_llm session ctx = session)
    ∧ (∀ last, session.getLast? = some last → last.role ≠ "user" →
        messages_for_llm session ctx = session)
    ∧ (session = [] → messages_for_llm session ctx = session) := by
  refine ⟨?_, ?_, ?_, ?_⟩
  · intro c last hc hcne hlast hrole
    subst hc
    have hne : session ≠ [] := by
      intro h0
      rw [h0] at hlast
      cases hlast
    have hdec := list_getLast_decomp session last hlast
    have hlastD : session.getLastD ⟨"", ""⟩ = last := by
      rw [List.getLastD_eq_getLast?, hlast]
      rfl
    constructor
    · rw [messages_for_llm]
      rw [if_neg ?_, if_neg ?_]
      · rw [hlastD]
        rfl
      · rw [hlastD, hrole]
        simp
      · simp [List.isEmpty_iff, hne]
        simpa using hcne
    · exact hdec
  · intro hctx
    rw [messages_for_llm]
    rw [if_pos ?_]
    rw [hctx]
    simp
  · intro last hlast hrole
    by_cases hctx : ctx.getD "" = ""
    · rw [messages_for_llm, if_pos ?_]
      rw [hctx]
      simp
    · have hlastD : session.getLastD ⟨"", ""⟩ = last := by
        rw [List.getLastD_eq_getLast?, hlast]
        rfl
      rw [messages_for_llm, if_neg ?_, if_pos ?_]
      · rw [hlastD]
        simpa using hrole
      · have hne : session ≠ [] := by
          intro h0
          rw [h0] at hlast
          cases hlast
        simp [List.isEmpty_iff, hne]
        simpa using hctx
  · intro h0
    subst h0
    rfl

/-- Witness for C9 at a concrete input. -/
theorem vector_context_injection_witness :
    messages_for_llm [⟨"user", "hi"⟩] (some "snippets") =
      ([⟨"user", "hi"⟩] : List ChatMsg).dropLast ++
        [⟨"system", "snippets"⟩, ⟨"user", "hi"⟩] :=
  ((vector_context_injection [⟨"user", "hi"⟩] (some "snippets")).1 "snippets"
    ⟨"user", "hi"⟩ rfl (by decide) rfl rfl).1

/-! ## vector_service/client.py : self-disabling HTTP client

The client's mutable flags become a record; the network is an oracle: the
health check outcome is a boolean and each request body is an Except value
(error = requests.RequestException).  For query responses, ok none models
a JSON body that is not a Sequence and ok (some items) a Sequence; for
save responses the ok payload is the optional id extracted from the JSON
dict.  Fields: enabled, checked (_checked), available (_available),
warned (_warned), hasLogger (whether _logger is not None). -/

structure VClient where
  enabled : Bool
  checked : Bool
  available : Bool
  warned : Bool
  hasLogger : Bool
deriving DecidableEq

/-- Embedding of VectorServiceClient._log_once (client.py 38-44). -/
def vclientLogOnce (c : VClient) : VClient :=
  if c.warned || !c.hasLogger then c else { c with warned := true }

/-- Embedding of VectorServiceClient._healthcheck (client.py 46-56): the
oracle says whether the GET /healthz round-trip succeeds; on failure the
client logs once. -/
def vclientHealthcheck (c : VClient) (healthy : Bool) : Bool × VClient :=
  if healthy then (true, c) else (false, vclientLogOnce c)

/-- Embedding of VectorServiceClient._ready (client.py 58-66). -/
def vclientReady (c : VClient) (healthy : Bool) : Bool × VClient :=
  if !c.enabled then (false, c)
  else if !c.checked then
    let hres := vclientHealthcheck c healthy
    let c2 := { hres.2 with available := hres.1, checked := true }
    let c3 := if !c2.available then { c2 with enabled := false } else c2
    (c3.available, c3)
  else (c.available, c)

/-- Embedding of VectorServiceClient.query_context (client.py 68-95). -/
def vclientQueryContext (c : VClient) (healthy : Bool)
    (resp : Except Unit (Option (List String))) : List String × VClient :=
  let r := vclientReady c healthy
  if !r.1 then ([], r.2)
  else
    match resp with
    | Except.error _ => ([], { vclientLogOnce r.2 with enabled := false })
    | Except.ok none => ([], r.2)
    | Except.ok (some data) => (data, r.2)

/-- Embedding of VectorServiceClient.save_message (client.py 97-125). -/
def vclientSaveMessage (c : VClient) (healthy : Bool)
    (resp : Except Unit (Option String)) : Option String × VClient :=
  let r := vclientReady c healthy
  if !r.1 then (none, r.2)
  else
    match resp with
    | Except.error _ => (none, { vclientLogOnce r.2 with enabled := false })
    | Except.ok idOpt => (idOpt, r.2)

/-- States reachable over the client's lifetime: once the first health
check has run, being enabled implies the service was available. -/
def VClientInv (c : VClient) : Prop :=
  c.enabled = true → c.checked = true → c.available = true

lemma vclientLogOnce_enabled (c : VClient) :
    (vclientLogOnce c).enabled = c.enabled := by
  rw [vclientLogOnce]
  split <;> rfl

lemma vclientLogOnce_checked (c : VClient) :
    (vclientLogOnce c).checked = c.checked := by
  rw [vclientLogOnce]
  split <;> rfl

lemma vclientLogOnce_available (c : VClient) :
    (vclientLogOnce c).available = c.available := by
  rw [vclientLogOnce]
  split <;> rfl

/-- C10: once disabled for any reason, the client stays exactly as it is
and query_context returns the empty list while save_message returns no
identifier (neither can raise: both are total); a failing first health
check disables the client; a failing network round-trip on either call
disables the client; and the lifetime invariant is preserved by both
calls, so a disabled client remains disabled forever. -/
theorem vclient_disable_semantics (c : VClient) (healthy : Bool)
    (rq : Except Unit (Option (List String)))
    (rs : Except Unit (Option String)) :
    (c.enabled = false →
        vclientQueryContext c healthy rq = ([], c)
      ∧ vclientSaveMessage c healthy rs = (none, c))
    ∧ (c.checked = false →
        (vclientQueryContext c false rq).2.enabled = false
      ∧ (vclientSaveMessage c false rs).2.enabled = false)
    ∧ (VClientInv c →
        (vclientQueryContext c healthy (Except.error ())).2.enabled = false
      ∧ (vclientSaveMessage c healthy (Except.error ())).2.enabled = false)
    ∧ (VClientInv c →
        VClientInv (vclientQueryContext c healthy rq).2
      ∧ VClientInv (vclientSaveMessage c healthy rs).2) := by
  obtain ⟨en, ch, av, w, lg⟩ := c
  refine ⟨?_, ?_, ?_, ?_⟩
  · intro h
    simp only at h
    subst h
    constructor
    · rw [vclientQueryContext.eq_def, vclientReady]
      rfl
    · rw [vclientSaveMessage.eq_def, vclientReady]
      rfl
  · intro h
    simp only at h
    subst h
    cases en
    · constructor
      · rw [vclientQueryContext.eq_def, vclientReady]
        rfl
      · rw [vclientSaveMessage.eq_def, vclientReady]
        rfl
    · constructor
      · rw [vclientQueryContext.eq_def, vclientReady]
        simp [vclientHealthcheck]
      · rw [vclientSaveMessage.eq_def, vclientReady]
        simp [vclientHealthcheck]
  · intro hinv
    cases en
    · constructor
      · rw [vclientQueryContext.eq_def, vclientReady]
        rfl
      · rw [vclientSaveMessage.eq_def, vclientReady]
        rfl
    · cases ch
      · cases healthy
        · constructor
          · rw [vclientQueryContext.eq_def, vclientReady]
            simp [vclientHealthcheck]
          · rw [vclientSaveMessage.eq_def, vclientReady]
            simp [vclientHealthcheck]
        · constructor
          · rw [vclientQueryContext.eq_def, vclientReady]
            simp [vclientHealthcheck, vclientLogOnce_enabled]
          · rw [vclientSaveMessage.eq_def, vclientReady]
            simp [vclientHealthcheck, vclientLogOnce_enabled]
      · have hav : av = true := hinv rfl rfl
        subst hav
        constructor
        · rw [vclientQueryContext.eq_def, vclientReady]
          simp [vclientLogOnce_enabled]
        · rw [vclientSaveMessage.eq_def, vclientReady]
          simp [vclientLogOnce_enabled]
  · intro hinv
    cases en
    · constructor
      · rw [vclientQueryContext.eq_def, vclientReady]
        exact fun h => absurd h (by simp)
      · rw [vclientSaveMessage.eq_def, vclientReady]
        exact fun h => absurd h (by simp)
    · cases ch
      · cases healthy
        · constructor
          · rw [vclientQueryContext.eq_def, vclientReady]
            simp [vclientHealthcheck, VClientInv, vclientLogOnce_enabled]
          · rw [vclientSaveMessage.eq_def, vclientReady]
            simp [vclientHealthcheck, VClientInv, vclientLogOnce_enabled]
        · constructor
          · rw [vclientQueryContext.eq_def, vclientReady]
            rcases rq with u | d
            · simp [vclientHealthcheck, VClientInv, vclientLogOnce_enabled,
                vclientLogOnce_checked, vclientLogOnce_available]
            · rcases d with _ | data <;>
                simp [vclientHealthcheck, VClientInv, vclientLogOnce_enabled,
                  vclientLogOnce_checked, vclientLogOnce_available]
          · rw [vclientSaveMessage.eq_def, vclientReady]
            rcases rs with u | idOpt
            · simp [vclientHealthcheck, VClientInv, vclientLogOnce_enabled,
                vclientLogOnce_checked, vclientLogOnce_available]
            · simp [vclientHealthcheck, VClientInv, vclientLogOnce_enabled,
                vclientLogOnce_checked, vclientLogOnce_available]
      · have hav : av = true := hinv rfl rfl
        subst hav
        constructor
        · rw [vclientQueryContext.eq_def, vclientReady]
          rcases rq with u | d
          · simp [VClientInv, vclientLogOnce_enabled, vclientLogOnce_checked,
              vclientLogOnce_available]
          · rcases d with _ | data <;> simp [VClientInv]
        · rw [vclientSaveMessage.eq_def, vclientReady]
          rcases rs with u | idOpt
          · simp [VClientInv, vclientLogOnce_enabled, vclientLogOnce_checked,
              vclientLogOnce_available]
          · simp [VClientInv]

/-- Witness for C10: a disabled client answers the query with the empty
list and keeps its state. -/
theorem vclient_disable_semantics_witness :
    vclientQueryContext ⟨false, true, false, false, false⟩ true
        (Except.ok (some ["x"])) =
      ([], ⟨false, true, false, false, false⟩) :=
  ((vclient_disable_semantics ⟨false, true, false, false, false⟩ true
    (Except.ok (some ["x"])) (Except.ok (some "id"))).1 rfl).1

/-! ## policy.py : DebianPolicy section lookup

Python str.startswith is modelled as a character-list prefix test and
len(index.split('.')) as one plus the number of dots, which agree with
the Python semantics and evaluate by kernel reduction. -/

/-- Python s.startswith(pre). -/
def pyStartswith (s pre : String) : Bool :=
  List.isPrefixOf pre.data s.data

/-- Section separator (policy.py 36). -/
def SEP_SECTION : String := "***"

/-- Subsection separator (policy.py 37). -/
def SEP_SUBSECTION : String := "==="

/-- Subsubsection separator (policy.py 38). -/
def SEP_SUBSUBSECTION : String := "---"

/-- The separator chosen from the number of dot-separated components of
the index, i.e. len(index.split('.')) (policy.py 98-102); the Python dict
lookup raises KeyError for any other depth. -/
def policySepFor (index : String) : Option String :=
  match index.data.count '.' + 1 with
  | 1 => some SEP_SECTION
  | 2 => some SEP_SUBSECTION
  | 3 => some SEP_SUBSUBSECTION
  | _ => none

/-- The scan loop of DebianPolicy.__getitem__ (policy.py 104-123): walk
the lines keeping the previous line, the in-range flag and the
accumulated output; the second branch pops the last accumulated line and
breaks out of the loop. -/
def policyScan (sep index : String) :
    List String → String → Bool → List String → List String
  | [], _, _, ret => ret
  | cursor :: rest, prev, inr, ret =>
    if pyStartswith cursor sep && pyStartswith prev (index ++ ". ") then
      policyScan sep index rest cursor true (ret ++ [prev, cursor])
    else if pyStartswith cursor sep && inr then
      ret.dropLast
    else if inr then
      policyScan sep index rest cursor inr (ret ++ [cursor])
    else
      policyScan sep index rest cursor inr ret

/-- Embedding of DebianPolicy.__getitem__ for a string index (policy.py
92-125): pick the separator for the index depth (KeyError when the depth
is out of range), scan from an empty previous line, and join the
collected lines with newlines. -/
def policyGetitem (lines : List String) (index : String) :
    Except Unit String :=
  match policySepFor index with
  | none => Except.error ()
  | some sep =>
    Except.ok (String.intercalate "\n"
      (policyScan sep index lines "" false []))

/-- A scan that never matches a section header collects nothing. -/
lemma policyScan_no_match (sep index : String) :
    ∀ (ls : List String) (prev : String),
      (∀ pc ∈ (prev :: ls).zip ls,
        ¬(pyStartswith pc.2 sep && pyStartswith pc.1 (index ++ ". ")) = true) →
      policyScan sep index ls prev false [] = [] := by
  intro ls
  induction ls with
  | nil => intro prev _; rfl
  | cons cursor rest ih =>
    intro prev h
    have h0 := h (prev, cursor) (by simp)
    rw [policyScan, if_neg h0, if_neg (by simp), if_neg (by simp)]
    refine ih cursor ?_
    intro pc hpc
    exact h pc (by simp [hpc])

/-- C8 (amended): for every indexed document and every identifier of at
most three dot-separated components that matches no section header, the
lookup returns the empty string without raising. -/
theorem policy_unrecognized_returns_empty (lines : List String)
    (index sep : String) (hsep : policySepFor index = some sep)
    (hnm : ∀ pc ∈ ("" :: lines).zip lines,
      ¬(pyStartswith pc.2 sep && pyStartswith pc.1 (index ++ ". ")) = true) :
    policyGetitem lines index = Except.ok "" := by
  simp only [policyGetitem.eq_def, hsep]
  rw [policyScan_no_match sep index lines "" hnm]
  rfl

/-- Witness for the amended C8 at a concrete input. -/
theorem policy_unrecognized_returns_empty_witness :
    policySepFor "9" = some SEP_SECTION
    ∧ (∀ pc ∈ ("" :: ["3. Intro", "*** body"]).zip ["3. Intro", "*** body"],
        ¬(pyStartswith pc.2 SEP_SECTION
          && pyStartswith pc.1 ("9" ++ ". ")) = true)
    ∧ policyGetitem ["3. Intro", "*** body"] "9" = Except.ok "" :=
  ⟨by decide, by decide,
    policy_unrecognized_returns_empty ["3. Intro", "*** body"] "9"
      SEP_SECTION (by decide) (by decide)⟩

/-- C8 as stated is false for identifiers with four or more dot-separated
components: 1.2.3.4 matches no section of the document at any depth, yet
the lookup raises a KeyError from the separator-table lookup instead of
returning the empty string. -/
theorem policy_deep_index_counterexample :
    policyGetitem ["3. Intro", "*** body"] "1.2.3.4" = Except.error ()
    ∧ (∀ sep ∈ [SEP_SECTION, SEP_SUBSECTION, SEP_SUBSUBSECTION],
        ∀ pc ∈ ("" :: ["3. Intro", "*** body"]).zip ["3. Intro", "*** body"],
          ¬(pyStartswith pc.2 sep
            && pyStartswith pc.1 ("1.2.3.4" ++ ". ")) = true) := by
  constructor
  · have hs : policySepFor "1.2.3.4" = none := by decide
    rw [policyGetitem.eq_def, hs]
  · decide

/-! ## cli.py : ordered gathering of context flags into the first prompt

The argparse namespace becomes a function from flag name to its remaining
list of supplied values, drained from the front by pop(0).  The reader
call each branch performs is abstracted into one function wrap from flag
name and value to wrapped text (the branches differ only in which reader
function they call and which fixed extra arguments they pass). -/

/-- The flag names gather_information_ordered drains by pop(0)
(cli.py 362-380). -/
def popKeys : List String :=
  ["file", "tldr", "man", "buildd", "pynew", "archw", "pdf",
   "cmd", "bts", "html", "policy", "devref"]

/-- Embedding of the local helper _append_info (cli.py 354-356). -/
def append_info (msg : Option String) (info : String) : String :=
  (match msg with | none => "" | some m => m) ++ "\n" ++ info

/-- The dispatch loop of gather_information_ordered (cli.py 360-393):
follow the supplied flag order; pop-keys consume the next stored value
and append its wrapped text; inplace appends the wrapped file content
without popping; mapreduce appends its aggregated text once and is
skipped afterwards; an unknown key raises NotImplementedError and popping
an exhausted list raises IndexError, both modelled as Except.error. -/
def gatherGo (wrap : String → String → String)
    (inplaceText mapreduceText : String) :
    List String → Option String → (String → List String) → Bool →
      Except Unit (Option String)
  | [], msg, _, _ => Except.ok msg
  | key :: rest, msg, ag, done_mr =>
    if key ∈ popKeys then
      match ag key with
      | [] => Except.error ()
      | v :: vs =>
        gatherGo wrap inplaceText mapreduceText rest
          (some (append_info msg (wrap key v)))
          (fun k => if k = key then vs else ag k) done_mr
    else if key = "inplace" then
      gatherGo wrap inplaceText mapreduceText rest
        (some (append_info msg inplaceText)) ag done_mr
    else if key = "mapreduce" then
      if done_mr then
        gatherGo wrap inplaceText mapreduceText rest msg ag done_mr
      else
        gatherGo wrap inplaceText mapreduceText rest
          (some (append_info msg mapreduceText)) ag true
    else Except.error ()

/-- Embedding of gather_information_ordered (cli.py 346-398): run the
dispatch loop over the recorded flag order, then append the --ask
question last.  ask is the argparse value, the empty string when --ask is
absent (Python tests its truthiness). -/
def gather_information_ordered (wrap : String → String → String)
    (inplaceText mapreduceText : String) (msg : Option String)
    (ag : String → List String) (ask : String) (ag_order : List String) :
    Except Unit (Option String) :=
  match gatherGo wrap inplaceText mapreduceText ag_order msg ag false with
  | Except.error u => Except.error u
  | Except.ok m =>
    if ask ≠ "" then
      Except.ok (some ((match m with | none => "" | some s => s) ++
        (if (match m with | none => "" | some s => s) = "" then ""
         else "\n") ++ ask))
    else Except.ok m

/-- Specification-side text sequence: the entry at each position of the
flag order takes, for its key, the stored value whose index equals the
number of earlier occurrences of the same key — FIFO draining, one value
per occurrence. -/
def flagTexts (wrap : String → String → String) (ag : String → List String) :
    List String → (String → Nat) → List String
  | [], _ => []
  | key :: rest, seen =>
    wrap key ((ag key).getD (seen key) "") ::
      flagTexts wrap ag rest
        (fun k => if k = key then seen key + 1 else seen k)

lemma flagTexts_cons (wrap : String → String → String)
    (ag : String → List String) (key : String) (rest : List String)
    (seen : String → Nat) :
    flagTexts wrap ag (key :: rest) seen =
      wrap key ((ag key).getD (seen key) "") ::
        flagTexts wrap ag rest
          (fun k => if k = key then seen key + 1 else seen k) := rfl

lemma list_getD_tail {α : Type} (l : List α) (n : Nat) (d : α) :
    l.tail.getD n d = l.getD (n + 1) d := by
  cases l <;> rfl

/-- Taking the tail of one key's stored list is the same as bumping the
occurrence counter for that key. -/
lemma flagTexts_tail_shift (wrap : String → String → String)
    (ag : String → List String) (key : String) :
    ∀ (order : List String) (seen : String → Nat),
      flagTexts wrap (fun k => if k = key then (ag key).tail else ag k)
          order seen =
        flagTexts wrap ag order
          (fun k => if k = key then seen k + 1 else seen k) := by
  intro order
  induction order with
  | nil => intro seen; rfl
  | cons key2 rest ih =>
    intro seen
    rw [flagTexts_cons, flagTexts_cons, ih]
    by_cases hk : key2 = key
    · subst hk
      refine congrArg₂ List.cons ?_ (congrArg (flagTexts wrap ag rest) ?_)
      · rw [if_pos rfl, list_getD_tail, if_pos rfl]
      · funext k
        by_cases h : k = key2 <;> simp [h]
    · refine congrArg₂ List.cons ?_ (congrArg (flagTexts wrap ag rest) ?_)
      · rw [if_neg hk, if_neg hk]
      · funext k
        by_cases h1 : k = key <;> by_cases h2 : k = key2 <;> simp_all
/-- The dispatch loop, when every key is a pop-key and every key has
enough stored values, succeeds and folds the wrapped texts onto the
message in flag order. -/
lemma gatherGo_spec (wrap : String → String → String)
    (inplaceText mapreduceText : String) :
    ∀ (order : List String) (msg : Option String)
      (ag : String → List String) (dmr : Bool),
      (∀ k ∈ order, k ∈ popKeys) →
      (∀ k, order.count k ≤ (ag k).length) →
      gatherGo wrap inplaceText mapreduceText order msg ag dmr =
        Except.ok ((flagTexts wrap ag order (fun _ => 0)).foldl
          (fun m i => some (append_info m i)) msg) := by
  intro order
  induction order with
  | nil => intro msg ag dmr _ _; rfl
  | cons key rest ih =>
    intro msg ag dmr hkeys hcount
    have hk : key ∈ popKeys := hkeys key (List.mem_cons_self key rest)
    have hpos : 0 < (ag key).length := by
      have hcnt := hcount key
      rw [List.count_cons_self] at hcnt
      omega
    obtain ⟨v, vs, hag⟩ : ∃ v vs, ag key = v :: vs := by
      cases hag : ag key with
      | nil => rw [hag] at hpos; simp at hpos
      | cons v vs => exact ⟨v, vs, rfl⟩
    have hcount2 : ∀ k,
        rest.count k ≤ ((fun k => if k = key then vs else ag k) k).length := by
      intro k
      by_cases hkk : k = key
      · have hcnt := hcount key
        rw [List.count_cons_self, hag] at hcnt
        simp only [List.length_cons] at hcnt
        rw [hkk]
        show List.count key rest ≤ (if key = key then vs else ag key).length
        rw [if_pos rfl]
        omega
      · have hcnt := hcount k
        rw [List.count_cons_of_ne hkk] at hcnt
        simp only [if_neg hkk]
        exact hcnt
    rw [gatherGo, if_pos hk, hag]
    show gatherGo wrap inplaceText mapreduceText rest
        (some (append_info msg (wrap key v)))
        (fun k => if k = key then vs else ag k) dmr =
      Except.ok (List.foldl (fun m i => some (append_info m i)) msg
        (flagTexts wrap ag (key :: rest) (fun _ => 0)))
    rw [ih (some (append_info msg (wrap key v)))
        (fun k => if k = key then vs else ag k) dmr
        (fun k hkr => hkeys k (List.mem_cons_of_mem key hkr)) hcount2]
    rw [flagTexts_cons]
    have hv : (ag key).getD 0 "" = v := by rw [hag]; rfl
    rw [hv, List.foldl_cons]
    have hupd : (fun k => if k = key then vs else ag k) =
        (fun k => if k = key then (ag key).tail else ag k) := by
      funext k
      by_cases hkk : k = key <;> simp [hkk, hag]
    rw [hupd, flagTexts_tail_shift wrap ag key rest (fun _ => 0)]

/-- Messages stay at least as long once text is folded on. -/
lemma gather_fold_len (parts : List String) :
    ∀ acc : String,
      acc.length ≤
        (parts.foldl (fun a p => a ++ "\n" ++ p) acc).length := by
  induction parts with
  | nil => intro acc; exact Nat.le_refl _
  | cons p ps ih =>
    intro acc
    rw [List.foldl_cons]
    refine le_trans ?_ (ih (acc ++ "\n" ++ p))
    rw [String.length_append, String.length_append]
    omega

/-- Folding the option-valued append over a some-message is the plain
string fold. -/
lemma gather_fold_some (parts : List String) :
    ∀ acc : String,
      parts.foldl (fun m i => some (append_info m i)) (some acc) =
        some (parts.foldl (fun a p => a ++ "\n" ++ p) acc) := by
  induction parts with
  | nil => intro acc; rfl
  | cons p ps ih =>
    intro acc
    rw [List.foldl_cons, List.foldl_cons]
    have h1 : append_info (some acc) p = acc ++ "\n" ++ p := rfl
    rw [h1, ih (acc ++ "\n" ++ p)]

lemma string_append_empty (s : String) : s ++ "" = s := by
  apply String.ext
  rw [String.data_append]
  exact List.append_nil s.data

/-- C4: when the recorded flag order consists of pop-keys and each flag
has at least as many stored values as occurrences, the assembled first
prompt is exactly the wrapped texts in the supplied order, each
occurrence draining the next stored value FIFO, separated by newlines,
with the --ask question appended after all gathered context as the final
part; an empty order yields just the question (or no prompt when there is
none). -/
theorem gather_ordered_fifo_ask_last (wrap : String → String → String)
    (inplaceText mapreduceText : String) (ag : String → List String)
    (ask : String) (ag_order : List String)
    (hkeys : ∀ k ∈ ag_order, k ∈ popKeys)
    (hcount : ∀ k, ag_order.count k ≤ (ag k).length) :
    gather_information_ordered wrap inplaceText mapreduceText none ag ask
        ag_order =
      Except.ok (
        match ag_order with
        | [] => if ask = "" then none else some ask
        | _ :: _ =>
          some ((flagTexts wrap ag ag_order (fun _ => 0)).foldl
              (fun a p => a ++ "\n" ++ p) "" ++
            (if ask = "" then "" else "\n" ++ ask))) := by
  cases ag_order with
  | nil =>
    rw [gather_information_ordered.eq_def,
      gatherGo_spec wrap inplaceText mapreduceText [] none ag false
        hkeys hcount]
    show (if ask ≠ "" then
        Except.ok (some ("" ++ (if ("" : String) = "" then "" else "\n") ++
          ask))
      else Except.ok none) =
      Except.ok (if ask = "" then none else some ask)
    by_cases hask : ask = ""
    · rw [if_neg (fun hx => hx hask), if_pos hask]
    · rw [if_pos hask, if_neg hask, if_pos rfl]
      rfl
  | cons key rest =>
    rw [gather_information_ordered.eq_def,
      gatherGo_spec wrap inplaceText mapreduceText (key :: rest) none ag
        false hkeys hcount]
    rw [flagTexts_cons, List.foldl_cons, List.foldl_cons]
    have h0 : append_info none (wrap key ((ag key).getD 0 "")) =
        "" ++ "\n" ++ wrap key ((ag key).getD 0 "") := rfl
    rw [h0, gather_fold_some]
    have hlen := gather_fold_len
      (flagTexts wrap ag rest (fun k => if k = key then 0 + 1 else 0))
      ("" ++ "\n" ++ wrap key ((ag key).getD 0 ""))
    have hne : (flagTexts wrap ag rest
          (fun k => if k = key then 0 + 1 else 0)).foldl
        (fun a p => a ++ "\n" ++ p)
        ("" ++ "\n" ++ wrap key ((ag key).getD 0 "")) ≠ "" := by
      intro h0x
      rw [h0x] at hlen
      rw [String.length_append, String.length_append] at hlen
      have h1 : ("\n" : String).length = 1 := rfl
      have h2 : ("" : String).length = 0 := rfl
      omega
    show (if ask ≠ "" then
        Except.ok (some ((List.foldl (fun a p => a ++ "\n" ++ p)
          ("" ++ "\n" ++ wrap key ((ag key).getD 0 ""))
          (flagTexts wrap ag rest fun k => if k = key then 0 + 1 else 0) ++
          (if List.foldl (fun a p => a ++ "\n" ++ p)
          ("" ++ "\n" ++ wrap key ((ag key).getD 0 ""))
          (flagTexts wrap ag rest fun k => if k = key then 0 + 1 else 0) =
              "" then "" else "\n")) ++ ask))
      else Except.ok (some (List.foldl (fun a p => a ++ "\n" ++ p)
          ("" ++ "\n" ++ wrap key ((ag key).getD 0 ""))
          (flagTexts wrap ag rest fun k => if k = key then 0 + 1 else 0)))) =
      Except.ok (some (List.foldl (fun a p => a ++ "\n" ++ p)
          ("" ++ "\n" ++ wrap key ((ag key).getD 0 ""))
          (flagTexts wrap ag rest fun k => if k = key then 0 + 1 else 0) ++
        (if ask = "" then "" else "\n" ++ ask)))
    by_cases hask : ask = ""
    · subst hask
      simp [string_append_empty]
    · rw [if_pos hask, if_neg hne, if_neg hask]
      rw [String.append_assoc]

/-- Witness for C4 at a concrete invocation: --file A --cmd B --file C
with --ask Q. -/
theorem gather_ordered_fifo_ask_last_witness :
    gather_information_ordered (fun k v => k ++ ":" ++ v) "ip" "mr" none
        (fun _ => ["A", "B", "C"]) "Q" ["file", "cmd", "file"] =
      Except.ok (
        match ["file", "cmd", "file"] with
        | [] => if "Q" = "" then none else some "Q"
        | _ :: _ =>
          some ((flagTexts (fun k v => k ++ ":" ++ v)
                (fun _ => ["A", "B", "C"]) ["file", "cmd", "file"]
                (fun _ => 0)).foldl
              (fun a p => a ++ "\n" ++ p) "" ++
            (if "Q" = "" then "" else "\n" ++ "Q"))) :=
  gather_ordered_fifo_ask_last (fun k v => k ++ ":" ++ v) "ip" "mr"
    (fun _ => ["A", "B", "C"]) "Q" ["file", "cmd", "file"]
    (by decide)
    (fun k => le_trans (List.count_le_length k ["file", "cmd", "file"])
      Nat.le.refl)

/-! ## vectordb.py : normalized vector storage

Vectors become lists of real numbers: float32 arithmetic is idealized as
exact real arithmetic (the claim itself speaks of floating-point
tolerance) and np.linalg.norm is the L2 norm.  Real.sqrt makes the
normalization noncomputable, as its values are irrational. -/

/-- Sum of squares of the components: the square of np.linalg.norm. -/
def l2normSq (v : List ℝ) : ℝ := (v.map (fun x => x ^ 2)).sum

/-- np.linalg.norm of a vector. -/
noncomputable def np_linalg_norm (v : List ℝ) : ℝ :=
  Real.sqrt (l2normSq v)

/-- The vector VectorDB.add_vector serializes (vectordb.py 63-94, after
the assert len(vector) >= self.dim): the input truncated to the
configured dimension, divided componentwise by the norm of the
truncation.  When that norm is zero, real division yields the zero
vector, while NumPy stores NaNs; either way the stored vector is not
unit-norm, which is what the counterexample below records. -/
noncomputable def add_vector_stored (dim : Nat) (vector : List ℝ) :
    List ℝ :=
  (vector.take dim).map (fun x => x / np_linalg_norm (vector.take dim))

lemma l2normSq_nonneg (v : List ℝ) : 0 ≤ l2normSq v := by
  refine List.sum_nonneg ?_
  intro x hx
  obtain ⟨y, _, hy⟩ := List.mem_map.mp hx
  rw [← hy]
  exact sq_nonneg y

lemma l2normSq_div (w : List ℝ) (c : ℝ) :
    l2normSq (w.map (fun x => x / c)) = l2normSq w / c ^ 2 := by
  induction w with
  | nil => simp [l2normSq]
  | cons x xs ih =>
    have ihx : ((xs.map (fun x => x / c)).map (fun x => x ^ 2)).sum =
        (xs.map (fun x => x ^ 2)).sum / c ^ 2 := ih
    simp only [l2normSq, List.map_cons, List.sum_cons] at ihx ⊢
    rw [ihx, div_pow, div_add_div_same]

/-- C6 as stated is false at the zero vector: it meets the stated
precondition (at least dim components) but the stored vector, though of
the right dimension, has L2 norm 0, not 1 — NumPy divides by the zero
norm and stores NaNs (real division by zero yields the zero vector). -/
theorem add_vector_zero_counterexample :
    (1 : Nat) ≤ ([(0 : ℝ)]).length
    ∧ add_vector_stored 1 [(0 : ℝ)] = [0]
    ∧ l2normSq (add_vector_stored 1 [(0 : ℝ)]) ≠ 1
    ∧ np_linalg_norm (add_vector_stored 1 [(0 : ℝ)]) ≠ 1 := by
  have hstored : add_vector_stored 1 [(0 : ℝ)] = [0] := by
    simp [add_vector_stored]
  refine ⟨by simp, hstored, ?_, ?_⟩
  · rw [hstored]
    simp [l2normSq]
  · rw [hstored, np_linalg_norm]
    simp [l2normSq]

/-- C6 (amended): whenever the input vector has at least dim components
and its truncation to dim components is not the zero vector, the stored
vector has exactly dim components and L2 norm exactly 1 (the real-number
idealization of norm 1 within floating-point tolerance), obtained by
truncating and rescaling to unit norm. -/
theorem add_vector_normalized_amended (dim : Nat) (vector : List ℝ)
    (hdim : dim ≤ vector.length)
    (hnz : l2normSq (vector.take dim) ≠ 0) :
    (add_vector_stored dim vector).length = dim
    ∧ l2normSq (add_vector_stored dim vector) = 1
    ∧ np_linalg_norm (add_vector_stored dim vector) = 1 := by
  have hnn : 0 ≤ l2normSq (vector.take dim) :=
    l2normSq_nonneg (vector.take dim)
  have hsq : np_linalg_norm (vector.take dim) ^ 2 =
      l2normSq (vector.take dim) := Real.sq_sqrt hnn
  have h2 : l2normSq (add_vector_stored dim vector) = 1 := by
    rw [add_vector_stored, l2normSq_div, hsq, div_self hnz]
  refine ⟨?_, h2, ?_⟩
  · rw [add_vector_stored, List.length_map, List.length_take]
    omega
  · rw [np_linalg_norm, h2, Real.sqrt_one]

/-- Witness for the amended C6 at a concrete input: a three-component
vector truncated to dimension two. -/
theorem add_vector_normalized_amended_witness :
    ((2 : Nat) ≤ ([3, 4, 7] : List ℝ).length
      ∧ l2normSq (([3, 4, 7] : List ℝ).take 2) ≠ 0)
    ∧ ((add_vector_stored 2 [3, 4, 7]).length = 2
      ∧ l2normSq (add_vector_stored 2 [3, 4, 7]) = 1
      ∧ np_linalg_norm (add_vector_stored 2 [3, 4, 7]) = 1) := by
  have hnz : l2normSq (([3, 4, 7] : List ℝ).take 2) ≠ 0 := by
    simp only [List.take, l2normSq, List.map_cons, List.map_nil,
      List.sum_cons, List.sum_nil, add_zero]
    intro h
    have h9 : ((3 : ℝ) ^ 2 + 4 ^ 2) = 25 := by norm_num
    rw [h9] at h
    exact (by norm_num : (25 : ℝ) ≠ 0) h
  exact ⟨⟨by simp, hnz⟩, add_vector_normalized_amended 2 [3, 4, 7]
    (by simp) hnz⟩

/-! ## retrieval.py with vectordb.py : persisting computed vectors (C7)

VectorRetriever.add (retrieval.py 101-114) computes an embedding and then
calls self.vdb.add(source, text, vector); batch_add (retrieval.py
116-131) does the same per text.  Its vdb field is a VectorDB
(retrieval.py 72), and the VectorDB class (vectordb.py 33-181) defines no
method named add — its insert method is add_vector(source, text, model,
vector).  Python attribute dispatch therefore raises AttributeError on
every call, before anything is persisted; the test
tests/test_retrieval.py::test_vectorretriever_add expects these calls to
succeed, so the code contradicts its own tests. -/

/-- The method names class VectorDB defines (vectordb.py 38-180). -/
def vectorDBMethods : List String :=
  ["__init__", "_create_table", "add_vector", "_decode_row", "get_vector",
   "get_all_rows", "get_all_vectors", "get_all", "delete_vector", "close",
   "retrieve", "ls", "show"]

/-- The vdb method name that VectorRetriever.add and batch_add invoke
(retrieval.py lines 113 and 130: self.vdb.add(source, text, vector)). -/
def vectorRetrieverAddCallee : String := "add"

/-- Python attribute lookup of a method name on a VectorDB instance:
AttributeError (none) when the class defines no such method. -/
def vectorDBGetattr (name : String) : Option String :=
  if name ∈ vectorDBMethods then some name else none

/-- C7 fails in the code: the store method that VectorRetriever.add and
batch_add call does not exist on VectorDB, so every call raises
AttributeError instead of persisting the embedding and returning it; the
method that does insert rows is add_vector, which also needs a model
argument the call does not pass. -/
theorem retriever_add_calls_missing_method :
    vectorDBGetattr vectorRetrieverAddCallee = none
    ∧ vectorRetrieverAddCallee ∉ vectorDBMethods
    ∧ "add_vector" ∈ vectorDBMethods := by
  refine ⟨?_, by decide, by decide⟩
  rw [vectorDBGetattr, if_neg (by decide)]

end DebGPT
